import Mathlib

/-!
Shallow embedding of the Levenberg-Marquardt optimizer
(`neupy/algorithms/gd/lev_marq.py`) and the discrete-memory validation
(`neupy/algorithms/memory/base.py`), with theorems settling the
specification claims.

Numeric values are modelled by exact rationals `ℚ`.  The theano shared
variable `last_error`, initialized to `np.nan`, is modelled as
`Option ℚ`: `none` stands for the NaN sentinel.  The one IEEE fact the
code relies on — a comparison with NaN is false — is made explicit in
`nanLt`.
-/

namespace Neupy

/-- Embeds `T.lt(last_error, error_func)` where `last_error` may hold the NaN
sentinel (`none`).  A comparison against NaN evaluates to false. -/
def nanLt : Option ℚ → ℚ → Bool
  | none, _ => false
  | some a, b => decide (a < b)

/-- The damping-factor update computed in `init_train_updates`:
`new_mu = ifelse(T.lt(last_error, error_func), mu * mu_update_factor,
mu / mu_update_factor)`. -/
def new_mu (last_error : Option ℚ) (error_func mu mu_update_factor : ℚ) : ℚ :=
  if nanLt last_error error_func then mu * mu_update_factor
  else mu / mu_update_factor

/-- The per-epoch optimizer state held in theano shared variables:
the damping factor `mu`, the recorded previous-epoch error
(`none` = the NaN it is initialized with), and the flattened
parameter vector. -/
structure LMState (p : ℕ) where
  mu : ℚ
  last_error : Option ℚ
  param_vector : Fin p → ℚ

/-- Embeds `LevenbergMarquardt.epoch_start_update`: reads the last recorded
error and stores it into the `last_error` shared variable only when one
exists (`if last_error is not None`); `mu` and the parameters are left
untouched. -/
def epoch_start_update (recorded : Option ℚ) (st : LMState p) : LMState p :=
  match recorded with
  | none => st
  | some e => { st with last_error := some e }

/-! ### Configuration validation

`LevenbergMarquardt` declares
`mu = BoundedProperty(default=0.01, minval=0)` and
`mu_update_factor = BoundedProperty(default=5, minval=1)`. -/

/-- Modelled from the spec: `BoundedProperty` lives in
`neupy/core/properties.py`, which is not part of the sources; per the
spec a configuration value below the property's bound is
"rejected before training starts", i.e. a value is accepted exactly
when it is at least `minval`. -/
def bounded_accepts (minval v : ℚ) : Bool := decide (minval ≤ v)

/-- Declared default of the `mu` property (`default=0.01`). -/
def mu_default : ℚ := 1 / 100

/-- Declared default of the `mu_update_factor` property (`default=5`). -/
def mu_update_factor_default : ℚ := 5

/-- A `LevenbergMarquardt` construction is accepted iff `mu` passes its
bound (`minval=0`) and `mu_update_factor` passes its bound (`minval=1`). -/
def lm_config_accepts (mu mu_update_factor : ℚ) : Bool :=
  bounded_accepts 0 mu && bounded_accepts 1 mu_update_factor

/-! ### The damped Gauss-Newton linear solve

`init_train_updates` builds
`updated_params = param_vector - matrix_inverse(J.T.dot(J) + new_mu * T.eye(n_params)).dot(J.T).dot(err)`.
`T.nlinalg.matrix_inverse` (numpy `linalg.inv`) raises `LinAlgError` on a
singular matrix; the fallible inverse is therefore an `Option`. -/

/-- Embeds `T.nlinalg.matrix_inverse`: the exact inverse when the determinant is
nonzero, failure (`none`, modelling the raised `LinAlgError`) when the
matrix is singular. -/
def matrix_inverse (M : Matrix (Fin p) (Fin p) ℚ) :
    Option (Matrix (Fin p) (Fin p) ℚ) :=
  if M.det = 0 then none else some (M.det⁻¹ • M.adjugate)

/-- The damped normal-equations matrix `J.T.dot(J) + mu * T.eye(n_params)`. -/
def damped_matrix (J : Matrix (Fin n) (Fin p) ℚ) (mu : ℚ) :
    Matrix (Fin p) (Fin p) ℚ :=
  J.transpose * J + mu • (1 : Matrix (Fin p) (Fin p) ℚ)

/-- The parameter step `matrix_inverse(...).dot(J.T).dot(err)`;
`none` when the inverse raised. -/
def lm_delta (J : Matrix (Fin n) (Fin p) ℚ) (mu : ℚ) (err : Fin n → ℚ) :
    Option (Fin p → ℚ) :=
  (matrix_inverse (damped_matrix J mu)).map
    (fun Minv => (Minv * J.transpose).mulVec err)

/-- The update list of `init_train_updates`, restricted to the shared
state it writes: `mu := new_mu` and
`param_vector := param_vector - delta` (per-parameter slicing of the
flattened vector is treated separately, see `unflatten_params`).
`none` when the linear solve raised. -/
def init_train_updates (st : LMState p) (J : Matrix (Fin n) (Fin p) ℚ)
    (err : Fin n → ℚ) (mu_update_factor error_func : ℚ) :
    Option (LMState p) :=
  let nmu := new_mu st.last_error error_func st.mu mu_update_factor
  (lm_delta J nmu err).map
    (fun delta =>
      { mu := nmu
        last_error := st.last_error
        param_vector := st.param_vector - delta })

/-! ### Residual -/

/-- Embeds `T.mean(M, axis=1)`: the row-wise mean of a matrix. -/
def mean_axis1 (M : Matrix (Fin n) (Fin m) ℚ) : Fin n → ℚ :=
  fun i => (∑ j, M i j) / (m : ℚ)

/-- The residual of `init_train_updates`:
`err = T.mean((network_output - prediction_func) ** 2, axis=1)`, a
vector of length `n` (one entry per sample). -/
def lm_residual (network_output prediction_func : Matrix (Fin n) (Fin m) ℚ) :
    Fin n → ℚ :=
  mean_axis1 (fun i j => (network_output i j - prediction_func i j) ^ 2)

/-- Stated from the spec, for comparison with `lm_residual`: "the
per-sample mean squared difference between network output and target
(mean taken over output dimensions, not over samples)". -/
def spec_residual (network_output target : Matrix (Fin n) (Fin m) ℚ) :
    Fin n → ℚ :=
  fun i => (∑ j, (network_output i j - target i j) ^ 2) / (m : ℚ)

/-! ### Parameter tensors, flattening and the Jacobian builder

A theano tensor is modelled by its shape and its row-major flattened
data; `param.size` is the product of the shape. -/

structure Tensor where
  shape : List ℕ
  data : List ℚ
deriving DecidableEq

/-- Embeds `param.size`: number of elements, the product of the shape. -/
def Tensor.size (t : Tensor) : ℕ := t.shape.prod

/-- A tensor is well formed when its flattened data has `size` entries. -/
def Tensor.wf (t : Tensor) : Prop := t.data.length = t.size

instance (t : Tensor) : Decidable t.wf :=
  inferInstanceAs (Decidable (t.data.length = t.size))

/-- Embeds `T.concatenate([param.flatten() for param in params])`: the flattened
parameter vector. -/
def flatten_params (params : List Tensor) : List ℚ :=
  (params.map Tensor.data).flatten

/-- Total element count `P` over a parameter list. -/
def total_size (params : List Tensor) : ℕ :=
  (params.map Tensor.size).sum

/-- The slicing loop at the end of `init_train_updates`: walk the
parameters in order, cut `param.size` entries for each from the updated
flattened vector (`updated_params[start_pos:end_pos]`) and reshape the
slice to `param.shape`. -/
def unflatten_params : List Tensor → List ℚ → List Tensor
  | [], _ => []
  | param :: rest, v =>
      { shape := param.shape, data := v.take param.size } ::
        unflatten_params rest (v.drop param.size)

/-- One row of the Jacobian: the per-parameter gradients of sample `i`,
each flattened (`j.reshape((n_samples, param.size))`), concatenated in
parameter order (`T.concatenate(jacc, axis=1)`).  `gi k` is the
flattened gradient of the sample's residual with respect to parameter
`k`, produced by the external differentiation engine (`T.grad`). -/
def jaccobian_row (params : List Tensor) (gi : ℕ → List ℚ) : List ℚ :=
  ((List.range params.length).map gi).flatten

/-- Embeds `jaccobian(y, x)`: the scan over sample indices `0, ..., n-1`
(`sequences=T.arange(n_samples)`); row `i` is built from the gradients
of `y[i]` alone.  `grad i k` is the flattened gradient of `y[i]` with
respect to parameter `k`, supplied by the external engine `T.grad`. -/
def jaccobian (n : ℕ) (params : List Tensor) (grad : ℕ → ℕ → List ℚ) :
    List (List ℚ) :=
  (List.range n).map (fun i => jaccobian_row params (grad i))

/-! ### A concrete differentiation-engine instance

For the spec's single-parameter, single-sample linear model the
residual is `a * x - y` with scalar parameter `a`; its gradient with
respect to `a` is the constant `x` (witnessed exactly by
`linResidual_slope`). -/

def linResidual (x y a : ℚ) : ℚ := a * x - y

def linResidualGrad (x _y : ℚ) : ℚ := x

theorem linResidual_slope (x y a b : ℚ) :
    linResidual x y b - linResidual x y a = linResidualGrad x y * (b - a) := by
  simp [linResidual, linResidualGrad]; ring

/-- Stated from the spec, for comparison with `unflatten_params` applied
to a Jacobian row: the per-parameter gradient segments, one tensor per
parameter, shaped like that parameter and carrying the flattened
gradient as data ("same parameter sequence, same per-parameter element
count and original shape"). -/
def gradient_segments : List Tensor → (ℕ → List ℚ) → List Tensor
  | [], _ => []
  | param :: rest, gi =>
      { shape := param.shape, data := gi 0 } ::
        gradient_segments rest (fun k => gi (k + 1))

/-! ### Discrete memory validation (`neupy/algorithms/memory/base.py`) -/

/-- Embeds `DiscreteMemory.discrete_validation`: raises `ValueError` when
`np.any((matrix != 0) & (matrix != 1))`, and otherwise falls off the end
of the function, returning Python's `None` (modelled as `Unit`). -/
def discrete_validation (matrix : List (List ℚ)) : Except String Unit :=
  if matrix.any (fun row => row.any (fun x => decide (x ≠ 0) && decide (x ≠ 1))) then
    Except.error ("This network is descrete. This mean that you can use data which contains 0 and 1 values")
  else
    Except.ok ()

/-! ### Helper lemmas -/

theorem dotProduct_self_nonneg {k : ℕ} (v : Fin k → ℚ) :
    0 ≤ Matrix.dotProduct v v := by
  unfold Matrix.dotProduct
  exact Finset.sum_nonneg fun i _ => mul_self_nonneg _

/-- For `mu > 0` the damped normal-equations matrix has nonzero
determinant: any kernel vector `v` would give
`0 = ‖J v‖² + mu ‖v‖² > 0`. -/
theorem damped_det_ne_zero {n p : ℕ} (J : Matrix (Fin n) (Fin p) ℚ) {mu : ℚ}
    (hmu : 0 < mu) : (damped_matrix J mu).det ≠ 0 := by
  intro hdet
  obtain ⟨v, hv, hMv⟩ := (Matrix.exists_mulVec_eq_zero_iff).mpr hdet
  have key : Matrix.dotProduct v ((damped_matrix J mu).mulVec v) = 0 := by
    rw [hMv, Matrix.dotProduct_zero]
  rw [damped_matrix, Matrix.add_mulVec, Matrix.dotProduct_add] at key
  have h1 : Matrix.dotProduct v ((J.transpose * J).mulVec v)
      = Matrix.dotProduct (J.mulVec v) (J.mulVec v) := by
    rw [← Matrix.mulVec_mulVec, Matrix.dotProduct_mulVec, Matrix.vecMul_transpose]
  have h2 : Matrix.dotProduct v ((mu • (1 : Matrix (Fin p) (Fin p) ℚ)).mulVec v)
      = mu * Matrix.dotProduct v v := by
    rw [Matrix.smul_mulVec_assoc, Matrix.one_mulVec, Matrix.dotProduct_smul,
      smul_eq_mul]
  have h3 : 0 ≤ Matrix.dotProduct (J.mulVec v) (J.mulVec v) :=
    dotProduct_self_nonneg _
  have h4 : 0 < Matrix.dotProduct v v := by
    rcases lt_or_eq_of_le (dotProduct_self_nonneg v) with h | h
    · exact h
    · exact absurd (Matrix.dotProduct_self_eq_zero.mp h.symm) hv
  rw [h1, h2] at key
  have hpos : 0 < mu * Matrix.dotProduct v v := mul_pos hmu h4
  linarith

/-- On a matrix of nonzero determinant, `matrix_inverse` succeeds and
returns the canonical inverse. -/
theorem matrix_inverse_eq_inv {p : ℕ} (M : Matrix (Fin p) (Fin p) ℚ)
    (h : M.det ≠ 0) : matrix_inverse M = some M⁻¹ := by
  rw [matrix_inverse, if_neg h, Matrix.inv_def, Ring.inverse_eq_inv]

/-- When the damped matrix (at the already-updated `mu`) is invertible,
the epoch step succeeds and produces exactly the new damping factor and
`param_vector - delta`. -/
theorem init_train_updates_eq {p n : ℕ} (st : LMState p)
    (J : Matrix (Fin n) (Fin p) ℚ) (err : Fin n → ℚ) (f e : ℚ)
    (hdet : (damped_matrix J (new_mu st.last_error e st.mu f)).det ≠ 0) :
    init_train_updates st J err f e = some
      { mu := new_mu st.last_error e st.mu f
        last_error := st.last_error
        param_vector := st.param_vector -
          ((damped_matrix J (new_mu st.last_error e st.mu f))⁻¹
            * J.transpose).mulVec err } := by
  rw [init_train_updates, lm_delta, matrix_inverse_eq_inv _ hdet,
    Option.map_some', Option.map_some']

theorem jaccobian_row_cons (param : Tensor) (rest : List Tensor)
    (gi : ℕ → List ℚ) :
    jaccobian_row (param :: rest) gi
      = gi 0 ++ jaccobian_row rest (fun k => gi (k + 1)) := by
  simp only [jaccobian_row, List.length_cons, List.range_succ_eq_map,
    List.map_cons, List.map_map, List.flatten_cons]
  rfl

theorem jaccobian_row_length (params : List Tensor) (gi : ℕ → List ℚ)
    (H : ∀ k (hk : k < params.length),
      (gi k).length = (params.get ⟨k, hk⟩).size) :
    (jaccobian_row params gi).length = total_size params := by
  induction params generalizing gi with
  | nil => rfl
  | cons param rest ih =>
    rw [jaccobian_row_cons, List.length_append]
    have h0 : (gi 0).length = param.size := H 0 (Nat.succ_pos _)
    have hrest : (jaccobian_row rest fun k => gi (k + 1)).length
        = total_size rest :=
      ih _ (fun k hk => H (k + 1) (Nat.succ_lt_succ hk))
    rw [h0, hrest]
    simp [total_size]

theorem unflatten_params_flatten_params (params : List Tensor) :
    (∀ t ∈ params, t.wf) →
    unflatten_params params (flatten_params params) = params := by
  induction params with
  | nil => intro _; rfl
  | cons p rest ih =>
    intro hwf
    have hp : p.data.length = p.size := hwf p (List.mem_cons_self p rest)
    have hflat : flatten_params (p :: rest) = p.data ++ flatten_params rest := by
      simp [flatten_params]
    rw [hflat, unflatten_params, ← hp, List.take_left, List.drop_left,
      ih (fun t ht => hwf t (List.mem_cons_of_mem p ht))]

theorem unflatten_jaccobian_row (params : List Tensor) :
    ∀ gi : ℕ → List ℚ,
    (∀ k (hk : k < params.length), (gi k).length = (params.get ⟨k, hk⟩).size) →
    unflatten_params params (jaccobian_row params gi)
      = gradient_segments params gi := by
  induction params with
  | nil => intro gi _; rfl
  | cons p rest ih =>
    intro gi H
    have h0 : (gi 0).length = p.size := H 0 (Nat.succ_pos _)
    rw [jaccobian_row_cons, unflatten_params, gradient_segments, ← h0,
      List.take_left, List.drop_left,
      ih _ (fun k hk => H (k + 1) (Nat.succ_lt_succ hk))]

/-! ### Claim theorems -/

/-- C2: at the start of every epoch after the first (so `last_error`
holds a recorded value), the new damping factor is
`mu * mu_update_factor` when `last_error < current_error` by strict
comparison, and `mu / mu_update_factor` otherwise, equality included.
With `last_error = 1`, `mu = 0.1`, `mu_update_factor = 5`:
`current_error = 2` gives `0.5`, and `current_error = 0.5` gives
`0.02`. -/
theorem damping_update_rule (le e mu f : ℚ) :
    (le < e → new_mu (some le) e mu f = mu * f) ∧
    (¬ le < e → new_mu (some le) e mu f = mu / f) ∧
    new_mu (some 1) 2 (1 / 10) 5 = 1 / 2 ∧
    new_mu (some 1) (1 / 2) (1 / 10) 5 = 1 / 50 := by
  refine ⟨fun h => ?_, fun h => ?_, ?_, ?_⟩
  · simp [new_mu, nanLt, h]
  · simp [new_mu, nanLt, h]
  · norm_num [new_mu, nanLt]
  · norm_num [new_mu, nanLt]

/-- Witness for C2 at `last_error = 0 < 1 = current_error` and at
`last_error = 1 > 0 = current_error`. -/
theorem damping_update_rule_witness :
    new_mu (some 0) 1 1 2 = 1 * 2 ∧ new_mu (some 1) 0 1 2 = 1 / 2 :=
  ⟨(damping_update_rule 0 1 1 2).1 (by norm_num),
   (damping_update_rule 1 0 1 2).2.1 (by norm_num)⟩

/-- C6: if `mu > 0` and `mu_update_factor ≥ 1`, the damping update
(multiplication or division by the factor, with the NaN first-epoch
branch included) yields a strictly positive `mu`; no clamping is
involved. -/
theorem mu_positivity_preserved (le : Option ℚ) (e mu f : ℚ)
    (hmu : 0 < mu) (hf : 1 ≤ f) : 0 < new_mu le e mu f := by
  have hf0 : 0 < f := lt_of_lt_of_le one_pos hf
  rw [new_mu]
  split
  · exact mul_pos hmu hf0
  · exact div_pos hmu hf0

/-- Witness for C6 at `mu = 1/100`, factor `5`, a recorded error `1`
and current error `2`. -/
theorem mu_positivity_preserved_witness :
    0 < new_mu (some 1) 2 (1 / 100) 5 :=
  mu_positivity_preserved (some 1) 2 (1 / 100) 5 (by norm_num) (by norm_num)

/-- C8: the residual
`err = T.mean((network_output - prediction_func) ** 2, axis=1)` is the
vector of length `n` whose entry `i` is the mean over the `m` output
dimensions (not over samples) of the squared differences of row `i`. -/
theorem residual_is_per_sample_mean {n m : ℕ}
    (network_output prediction_func : Matrix (Fin n) (Fin m) ℚ) :
    lm_residual network_output prediction_func
      = spec_residual network_output prediction_func := by
  funext i
  simp [lm_residual, spec_residual, mean_axis1]

/-- C9: a configuration is rejected exactly when `mu < 0` or
`mu_update_factor < 1`; the defaults are `0.01` and `5` and are
accepted. -/
theorem config_bounds_validation (mu f : ℚ) :
    (lm_config_accepts mu f = false ↔ mu < 0 ∨ f < 1) ∧
    mu_default = 1 / 100 ∧
    mu_update_factor_default = 5 ∧
    lm_config_accepts mu_default mu_update_factor_default = true := by
  refine ⟨?_, rfl, rfl, ?_⟩
  · rw [lm_config_accepts, Bool.and_eq_false_iff]
    simp [bounded_accepts, not_le]
  · norm_num [lm_config_accepts, bounded_accepts, mu_default,
      mu_update_factor_default]

/-- C10: `discrete_validation` raises `ValueError` iff some entry of
the matrix differs from both `0` and `1`; on an all-binary matrix it
raises nothing and returns `None` (here `Unit`), not the boolean its
docstring promises. -/
theorem discrete_validation_raises_iff (matrix : List (List ℚ)) :
    ((∃ row ∈ matrix, ∃ x ∈ row, x ≠ 0 ∧ x ≠ 1) ↔
      ∃ msg, discrete_validation matrix = Except.error msg) ∧
    ((∀ row ∈ matrix, ∀ x ∈ row, x = 0 ∨ x = 1) →
      discrete_validation matrix = Except.ok ()) := by
  have hc : (matrix.any fun row => row.any fun x =>
        decide (x ≠ 0) && decide (x ≠ 1)) = true
      ↔ ∃ row ∈ matrix, ∃ x ∈ row, x ≠ 0 ∧ x ≠ 1 := by
    simp [List.any_eq_true]
  constructor
  · constructor
    · intro h
      rw [discrete_validation, if_pos (hc.mpr h)]
      exact ⟨_, rfl⟩
    · rintro ⟨msg, hmsg⟩
      by_contra hno
      rw [discrete_validation, if_neg] at hmsg
      · exact Except.noConfusion hmsg
      · intro htrue
        exact hno (hc.mp htrue)
  · intro hall
    rw [discrete_validation, if_neg]
    intro htrue
    obtain ⟨row, hrow, x, hx, hx0, hx1⟩ := hc.mp htrue
    rcases hall row hrow x hx with h | h
    · exact hx0 h
    · exact hx1 h

/-- Witness for C10 on the all-binary matrix `[[0, 1], [1]]`. -/
theorem discrete_validation_raises_iff_witness :
    discrete_validation [[0, 1], [1]] = Except.ok () :=
  (discrete_validation_raises_iff [[0, 1], [1]]).2 (by decide)

/-- C1 as stated is false: on the first epoch `last_error` holds the
NaN sentinel, the hook leaves the state unchanged, and the train step
still updates `mu`: with initial `mu = 0.01`, factor `5`, a `1 × 1`
identity Jacobian and current error `0`, the resulting `mu` is
`0.002`, not the configured `0.01`. -/
theorem first_epoch_mu_retained_counterexample :
    ((init_train_updates
        (epoch_start_update none
          (⟨1 / 100, none, fun _ => 0⟩ : LMState 1))
        (Matrix.of fun _ _ => 1 : Matrix (Fin 1) (Fin 1) ℚ)
        (fun _ => 0) 5 0).map LMState.mu) = some (1 / 500) ∧
    (1 / 500 : ℚ) ≠ 1 / 100 := by
  constructor
  · have hdet : (damped_matrix
        (Matrix.of fun _ _ => 1 : Matrix (Fin 1) (Fin 1) ℚ)
        (new_mu none 0 (1 / 100) 5)).det ≠ 0 := by
      have hmu : new_mu none 0 (1 / 100) 5 = 1 / 500 := by
        norm_num [new_mu, nanLt]
      rw [hmu]
      simp [damped_matrix, Matrix.det_fin_one, Matrix.mul_apply,
        Matrix.transpose_apply, Matrix.one_apply]
      norm_num
    have hhook : epoch_start_update none
        (⟨1 / 100, none, fun _ => 0⟩ : LMState 1)
        = (⟨1 / 100, none, fun _ => 0⟩ : LMState 1) := rfl
    have h := init_train_updates_eq
      (⟨1 / 100, none, fun _ => 0⟩ : LMState 1)
      (Matrix.of fun _ _ => 1 : Matrix (Fin 1) (Fin 1) ℚ)
      (fun _ => 0) 5 0 hdet
    rw [hhook, h, Option.map_some']
    norm_num [new_mu, nanLt]
  · norm_num

/-- C1 corrected: on the first epoch (`last_error` still the NaN
sentinel), the damping-update hook leaves the state unchanged, but the
epoch's train step does not skip the damping update: since a comparison
with NaN is false, the `ifelse` takes the division branch and the
stored `mu` becomes `mu / mu_update_factor`. -/
theorem first_epoch_mu_divided {p n : ℕ} (st : LMState p)
    (J : Matrix (Fin n) (Fin p) ℚ) (err : Fin n → ℚ) (f e : ℚ)
    (hfirst : st.last_error = none) :
    epoch_start_update none st = st ∧
    new_mu st.last_error e st.mu f = st.mu / f ∧
    (∀ res : LMState p, init_train_updates st J err f e = some res →
      res.mu = st.mu / f) := by
  have hnm : new_mu st.last_error e st.mu f = st.mu / f := by
    rw [hfirst, new_mu]
    rfl
  refine ⟨rfl, hnm, fun res hres => ?_⟩
  rw [init_train_updates] at hres
  rcases hld : lm_delta J (new_mu st.last_error e st.mu f) err with _ | d
  · rw [hld] at hres
    exact Option.noConfusion hres
  · rw [hld, Option.map_some', Option.some_inj] at hres
    rw [← hres, hnm]

/-- Witness for C1 (corrected) at a concrete first-epoch state with
`mu = 1`, factor `2`, a `1 × 1` identity Jacobian and current error
`0`. -/
theorem first_epoch_mu_divided_witness :
    epoch_start_update none (⟨1, none, fun _ => 0⟩ : LMState 1)
        = (⟨1, none, fun _ => 0⟩ : LMState 1) ∧
    new_mu (⟨1, none, fun _ => 0⟩ : LMState 1).last_error 0
        (⟨1, none, fun _ => 0⟩ : LMState 1).mu 2
      = (⟨1, none, fun _ => 0⟩ : LMState 1).mu / 2 ∧
    (∀ res : LMState 1,
      init_train_updates (⟨1, none, fun _ => 0⟩ : LMState 1)
          (Matrix.of fun _ _ => 1 : Matrix (Fin 1) (Fin 1) ℚ)
          (fun _ => 0) 2 0 = some res →
      res.mu = (⟨1, none, fun _ => 0⟩ : LMState 1).mu / 2) :=
  first_epoch_mu_divided (⟨1, none, fun _ => 0⟩ : LMState 1)
    (Matrix.of fun _ _ => 1) (fun _ => 0) 2 0 rfl

/-- C3: for every Jacobian `J` (rank-deficient ones included) and every
`mu > 0`, the damped matrix `J^T J + mu I` has nonzero determinant and
the solve succeeds; for `mu = 0` with `J^T J` singular the solve fails
(surfaced as `none`, never silent). -/
theorem damped_solve_invertibility {n p : ℕ} (J : Matrix (Fin n) (Fin p) ℚ)
    (mu : ℚ) (err : Fin n → ℚ) :
    (0 < mu → (damped_matrix J mu).det ≠ 0) ∧
    (0 < mu → (lm_delta J mu err).isSome = true) ∧
    (mu = 0 → (J.transpose * J).det = 0 → lm_delta J mu err = none) := by
  refine ⟨fun h => damped_det_ne_zero J h, fun h => ?_, fun h0 hsing => ?_⟩
  · rw [lm_delta, matrix_inverse_eq_inv _ (damped_det_ne_zero J h),
      Option.map_some']
    rfl
  · have hd : damped_matrix J mu = J.transpose * J := by
      rw [h0, damped_matrix, zero_smul, add_zero]
    rw [lm_delta, hd, matrix_inverse, if_pos hsing]
    rfl

/-- Witness for C3 at the all-zero `1 × 1` Jacobian, with `mu = 1` for
the success half and `mu = 0` for the failure half. -/
theorem damped_solve_invertibility_witness :
    ((damped_matrix (0 : Matrix (Fin 1) (Fin 1) ℚ) 1).det ≠ 0 ∧
      (lm_delta (0 : Matrix (Fin 1) (Fin 1) ℚ) 1 (fun _ => 0)).isSome = true) ∧
    lm_delta (0 : Matrix (Fin 1) (Fin 1) ℚ) 0 (fun _ => 0) = none :=
  ⟨⟨(damped_solve_invertibility 0 1 (fun _ => 0)).1 one_pos,
    (damped_solve_invertibility 0 1 (fun _ => 0)).2.1 one_pos⟩,
   (damped_solve_invertibility 0 0 (fun _ => 0)).2.2 rfl (by simp)⟩

/-- C4: when the damped matrix is invertible the solve returns exactly
`delta = (J^T J + mu I)⁻¹ J^T err`; a successful epoch step subtracts
that delta (computed at the freshly updated `mu`) from the flattened
parameter vector; and in the concrete 2-sample, 1-parameter case
`J = [[1], [1]]`, `err = [0.1, 0.1]`, `mu = 0` the delta is `0.1` and
the new parameter is the old one minus `0.1`. -/
theorem parameter_step_formula {n p : ℕ} (st : LMState p)
    (J : Matrix (Fin n) (Fin p) ℚ) (err : Fin n → ℚ) (mu f e : ℚ)
    (pv : Fin 1 → ℚ) :
    ((damped_matrix J mu).det ≠ 0 →
      lm_delta J mu err
        = some ((damped_matrix J mu)⁻¹.mulVec (J.transpose.mulVec err))) ∧
    (∀ res : LMState p, init_train_updates st J err f e = some res →
      ∃ d, lm_delta J (new_mu st.last_error e st.mu f) err = some d ∧
        res.mu = new_mu st.last_error e st.mu f ∧
        res.param_vector = st.param_vector - d) ∧
    lm_delta (Matrix.of fun _ _ => 1 : Matrix (Fin 2) (Fin 1) ℚ) 0
        (fun _ => 1 / 10) = some (fun _ => 1 / 10) ∧
    init_train_updates (⟨0, none, pv⟩ : LMState 1)
        (Matrix.of fun _ _ => 1 : Matrix (Fin 2) (Fin 1) ℚ)
        (fun _ => 1 / 10) 5 e
      = some ⟨0, none, pv - fun _ => 1 / 10⟩ := by
  have hconc : lm_delta (Matrix.of fun _ _ => 1 : Matrix (Fin 2) (Fin 1) ℚ) 0
      (fun _ => 1 / 10) = some (fun _ => 1 / 10) := by
    have h1 : damped_matrix (Matrix.of fun _ _ => 1 : Matrix (Fin 2) (Fin 1) ℚ) 0
        = (Matrix.of fun _ _ => 2 : Matrix (Fin 1) (Fin 1) ℚ) := by
      ext i j
      simp [damped_matrix, Matrix.mul_apply, Fin.sum_univ_two,
        Matrix.transpose_apply, Matrix.one_apply, Subsingleton.elim i j]
    have h2 : matrix_inverse
        (Matrix.of fun _ _ => (2 : ℚ) : Matrix (Fin 1) (Fin 1) ℚ)
        = some (Matrix.of fun _ _ => 1 / 2) := by
      rw [matrix_inverse, if_neg]
      · rw [Matrix.adjugate_fin_one]
        congr 1
        ext i j
        simp [Matrix.det_fin_one, Matrix.one_apply, Subsingleton.elim i j]
      · simp [Matrix.det_fin_one]
    rw [lm_delta, h1, h2, Option.map_some']
    congr 1
    funext i
    simp [Matrix.mulVec, Matrix.mul_apply, Matrix.dotProduct, Fin.sum_univ_two,
      Matrix.transpose_apply, Fin.sum_univ_one]
  refine ⟨fun hdet => ?_, fun res hres => ?_, hconc, ?_⟩
  · rw [lm_delta, matrix_inverse_eq_inv _ hdet, Option.map_some',
      Matrix.mulVec_mulVec]
  · rw [init_train_updates] at hres
    rcases hld : lm_delta J (new_mu st.last_error e st.mu f) err with _ | d
    · rw [hld] at hres
      exact Option.noConfusion hres
    · rw [hld, Option.map_some', Option.some_inj] at hres
      exact ⟨d, rfl, by rw [← hres], by rw [← hres]⟩
  · have hnm : new_mu (none : Option ℚ) e 0 5 = 0 := by
      simp [new_mu, nanLt]
    rw [init_train_updates]
    rw [show new_mu (⟨0, none, pv⟩ : LMState 1).last_error e
        (⟨0, none, pv⟩ : LMState 1).mu 5 = 0 from hnm]
    rw [hconc]
    rfl

/-- Witness for C4: the delta formula at the `1 × 1` zero Jacobian with
`mu = 1`. -/
theorem parameter_step_formula_witness :
    lm_delta (0 : Matrix (Fin 1) (Fin 1) ℚ) 1 (fun _ => 0)
      = some ((damped_matrix (0 : Matrix (Fin 1) (Fin 1) ℚ) 1)⁻¹.mulVec
          ((0 : Matrix (Fin 1) (Fin 1) ℚ).transpose.mulVec (fun _ => 0))) :=
  (parameter_step_formula (⟨1, none, fun _ => 0⟩ : LMState 1)
    (0 : Matrix (Fin 1) (Fin 1) ℚ) (fun _ => 0) 1 1 0 (fun _ => 0)).1
    (by
      simp [damped_matrix, Matrix.det_fin_one, Matrix.one_apply])

/-- C5: the Jacobian builder returns `n` rows; row `i` is the
concatenation, in parameter order, of the flattened per-parameter
gradients of sample `i` alone (so it depends only on that sample's
gradients); every row has length `P = total_size params`; and for the
single-parameter, single-sample linear model `residual = a * x - y`
(whose gradient with respect to `a` is exactly the slope `x`) the
result is the `1 × 1` matrix `[[x]]`. -/
theorem jaccobian_builder_rows {n : ℕ} (params : List Tensor)
    (grad : ℕ → ℕ → List ℚ) (x y a : ℚ) :
    (jaccobian n params grad).length = n ∧
    (∀ i, i < n → (jaccobian n params grad)[i]?
        = some (jaccobian_row params (grad i))) ∧
    ((∀ i k (hk : k < params.length),
        (grad i k).length = (params.get ⟨k, hk⟩).size) →
      ∀ row ∈ jaccobian n params grad, row.length = total_size params) ∧
    (∀ a' b : ℚ, linResidual x y b - linResidual x y a'
        = linResidualGrad x y * (b - a')) ∧
    jaccobian 1 [⟨[], [a]⟩] (fun _ _ => [linResidualGrad x y]) = [[x]] := by
  refine ⟨?_, fun i hi => ?_, fun H row hrow => ?_,
    fun a' b => linResidual_slope x y a' b, ?_⟩
  · simp [jaccobian]
  · simp [jaccobian, List.getElem?_map, List.getElem?_range hi]
  · rw [jaccobian] at hrow
    obtain ⟨i, _, hrowEq⟩ := List.mem_map.mp hrow
    rw [← hrowEq]
    exact jaccobian_row_length params (grad i) (fun k hk => H i k hk)
  · rfl

/-- Witness for C5 at two samples and one shape-`[2]` parameter, with a
constant gradient oracle. -/
theorem jaccobian_builder_rows_witness :
    (jaccobian 2 [⟨[2], [1, 2]⟩] (fun _ _ => [5, 6])).length = 2 ∧
    (jaccobian_row [⟨[2], [1, 2]⟩] (fun _ => [5, 6])).length
      = total_size [⟨[2], [1, 2]⟩] := by
  constructor
  · exact (@jaccobian_builder_rows 2 [⟨[2], [1, 2]⟩] (fun _ _ => [5, 6]) 0 0 0).1
  · refine (@jaccobian_builder_rows 2 [⟨[2], [1, 2]⟩]
        (fun _ _ => [5, 6]) 0 0 0).2.2.1 (fun i k hk => ?_) _ ?_
    · have hk0 : k = 0 := Nat.lt_one_iff.mp hk
      subst hk0
      rfl
    · exact List.mem_map.mpr ⟨0, by simp, rfl⟩

/-- C7: flattening the parameter tensors in order and slicing the
vector back at the per-tensor `size` boundaries reproduces the tensors
exactly; and slicing a Jacobian row at the same boundaries recovers
exactly the per-parameter gradient segments the row was concatenated
from (same parameter sequence, same element counts, same shapes). -/
theorem flatten_unflatten_contract (params : List Tensor) (gi : ℕ → List ℚ) :
    ((∀ t ∈ params, t.wf) →
      unflatten_params params (flatten_params params) = params) ∧
    ((∀ k (hk : k < params.length),
        (gi k).length = (params.get ⟨k, hk⟩).size) →
      unflatten_params params (jaccobian_row params gi)
        = gradient_segments params gi) :=
  ⟨unflatten_params_flatten_params params, unflatten_jaccobian_row params gi⟩

/-- Witness for C7 on two tensors of shapes `[2]` and `[1, 2]`. -/
theorem flatten_unflatten_contract_witness :
    unflatten_params [⟨[2], [1, 2]⟩, ⟨[1, 2], [3, 4]⟩]
        (flatten_params [⟨[2], [1, 2]⟩, ⟨[1, 2], [3, 4]⟩])
      = [⟨[2], [1, 2]⟩, ⟨[1, 2], [3, 4]⟩] ∧
    unflatten_params [⟨[2], [1, 2]⟩, ⟨[1, 2], [3, 4]⟩]
        (jaccobian_row [⟨[2], [1, 2]⟩, ⟨[1, 2], [3, 4]⟩]
          (fun k => if k = 0 then [5, 6] else [7, 8]))
      = gradient_segments [⟨[2], [1, 2]⟩, ⟨[1, 2], [3, 4]⟩]
          (fun k => if k = 0 then [5, 6] else [7, 8]) :=
  ⟨(flatten_unflatten_contract [⟨[2], [1, 2]⟩, ⟨[1, 2], [3, 4]⟩]
      (fun k => if k = 0 then [5, 6] else [7, 8])).1 (by decide),
   (flatten_unflatten_contract [⟨[2], [1, 2]⟩, ⟨[1, 2], [3, 4]⟩]
      (fun k => if k = 0 then [5, 6] else [7, 8])).2 (by decide)⟩

end Neupy
